import Mathlib

/-!
Verification of core behaviours of the Neural-CheChe self-play training
system: the replay buffer's FIFO semantics, the league's challenger
promotion protocol, atomicity of validated move application, reward
assignment to recorded experiences, the per-match move bound, the
training step's error recovery, the board tensor encodings of both
games, and the MCTS search engine.

Numeric quantities that are floats in the program (rewards, priors,
probabilities, losses) are modelled over ℚ.  Python exceptions are
modelled with `Except`/`Option`/`Bool` outcomes at the statement
granularity of the source.
-/

/-! ## Replay buffer (`core/replay_buffer.py`)

`SharedReplayBuffer` stores experiences in `deque(maxlen=capacity)`:
appending on the right evicts from the left once the buffer is at
capacity. -/

namespace ReplayBuffer

/-- One `SharedReplayBuffer.add` call with a single (non-list) experience:
`self.buffer.append(experiences)` on a `deque(maxlen=capacity)`. -/
def addOne {α : Type} (capacity : ℕ) (buf : List α) (e : α) : List α :=
  let b := buf ++ [e]
  b.drop (b.length - capacity)

/-- A sequence of single-experience `add` calls, oldest first. -/
def addAll {α : Type} (capacity : ℕ) (buf : List α) (es : List α) : List α :=
  es.foldl (addOne capacity) buf

end ReplayBuffer

/-! ## League challenger phase (`league/league_manager.py`, `league/agents.py`)

`_run_challenger_phase_with_progress`: if the evaluated win rate strictly
exceeds `challenger_threshold`, the champion's weights are overwritten by
the challenger's (`ChampionAgent.promote_from_challenger`), then Alpha and
Beta copy weights from the (new) champion and a champion-history record is
appended; otherwise `ChampionAgent.record_defense(True)` increments the
defense-win counter. -/

namespace League

/-- The league state components touched by the challenger phase.  `W` is
the (opaque) type of a network's full weight state. -/
structure LeagueState (W : Type) where
  championW : W
  alphaW : W
  betaW : W
  defenseWins : ℕ
  defenseLosses : ℕ
  championHistoryLen : ℕ

/-- The promotion decision of `_run_challenger_phase_with_progress`,
lines 975-992 of `league_manager.py`. -/
def run_challenger_phase {W : Type} (s : LeagueState W) (challengerW : W)
    (winRate threshold : ℚ) : LeagueState W :=
  if winRate > threshold then
    let s1 := { s with championW := challengerW }
    let s2 := { s1 with alphaW := s1.championW }
    let s3 := { s2 with betaW := s2.championW }
    { s3 with championHistoryLen := s3.championHistoryLen + 1 }
  else
    { s with defenseWins := s.defenseWins + 1 }

/-- Concrete state used to instantiate the challenger-phase theorem. -/
def sampleState : LeagueState ℕ :=
  { championW := 1, alphaW := 2, betaW := 3
    defenseWins := 0, defenseLosses := 0, championHistoryLen := 0 }

end League

/-! ## Move application (`games/chess/chess_game.py`, `games/checkers/checkers_game.py`)

Both `make_move` implementations push the move onto the board, run
`post_move_validation(board_before, board, move)` and, on failure, call
`board.pop()` (which restores the pre-push state) and raise.  A board with
a move stack is modelled as a base position plus the list of pushed
moves. -/

namespace Games

/-- A mutable board of the underlying rules engines: a base position and
the stack of moves pushed onto it (`board.push` / `board.pop`). -/
structure StackBoard (B M : Type) where
  base : B
  moves : List M
deriving DecidableEq

/-- The push operation `board.push(move)`. -/
def push {B M : Type} (b : StackBoard B M) (m : M) : StackBoard B M :=
  { b with moves := b.moves ++ [m] }

/-- The pop operation `board.pop()`: removes the most recently pushed move. -/
def pop {B M : Type} (b : StackBoard B M) : StackBoard B M :=
  { b with moves := b.moves.dropLast }

/-- Embedding of `ChessGame.make_move` / `CheckersGame.make_move`: push the move, run
post-move validation, and on failure pop the move and raise.  The `Bool`
is `false` exactly when the call raises `ValueError`; the second
component is the board state visible to the caller afterwards. -/
def make_move {B M : Type} (validate : StackBoard B M → StackBoard B M → M → Bool)
    (board : StackBoard B M) (m : M) : Bool × StackBoard B M :=
  let board_before := board
  let after := push board m
  if validate board_before after m then (true, after)
  else (false, pop after)

/-- A post-move validator that always fails, used to instantiate the
atomicity theorem on a concrete failing input. -/
def alwaysReject : StackBoard ℕ ℕ → StackBoard ℕ ℕ → ℕ → Bool :=
  fun _ _ _ => false

/-! ### Board tensor encodings

`ChessGame.board_to_tensor` builds 8 history groups of 14 planes of 8×8:
12 piece-occupancy planes (6 piece types × 2 colours), plane 12 filled
with the side to move, plane 13 filled with `fullmove_number / 100`.
`CheckersGame.board_to_tensor` parses the draughts FEN: entries that pass
`isdigit()` (i.e. men only — king entries carry a `K` prefix and are
skipped) set plane 0 (white man) or plane 2 (black man); `plane[12]` is
the side to move and `plane[13] = 0` is a placeholder, independent of the
move count.  Tensors are modelled as functions of
(history index, plane, row, col), zero outside 8×14×8×8. -/

/-- The chess board state read by `ChessGame.board_to_tensor`:
`pieceAt sq = some (idx, isBlack)` with `idx` the index 0-5 assigned to
`p n b r q k`. -/
structure ChessBoardEnc where
  pieceAt : ℕ → Option (ℕ × Bool)
  turnWhite : Bool
  fullmoveNumber : ℕ

/-- One 14-plane group of the chess encoding: the body of the
`for i in range(8)` loop in `ChessGame.board_to_tensor`. -/
def chessPlaneEntry (st : ChessBoardEnc) (p r c : ℕ) : ℚ :=
  if p = 12 then (if st.turnWhite then 1 else 0)
  else if p = 13 then (st.fullmoveNumber : ℚ) / 100
  else
    match st.pieceAt ((7 - r) * 8 + c) with
    | some pc => if (pc.1 + (if pc.2 then 6 else 0)) = p then 1 else 0
    | none => 0

/-- Selection of the position for history group `i`: the current board for
`i = 0`, `history[-i]` while available, else the current board (padding). -/
def histSelect {S : Type} (board : S) (history : List S) (i : ℕ) : S :=
  if i = 0 then board
  else if i ≤ history.length then (history.get? (history.length - i)).getD board
  else board

/-- Embedding of `ChessGame.board_to_tensor` as a function of
(history index, plane, row, col). -/
def chess_board_to_tensor (b : ChessBoardEnc) (history : List ChessBoardEnc)
    (i p r c : ℕ) : ℚ :=
  if i < 8 ∧ p < 14 ∧ r < 8 ∧ c < 8 then
    chessPlaneEntry (histSelect b history i) p r c
  else 0

/-- One piece parsed from the draughts FEN: its square number (1-50) and
whether it is a king (a `K`-prefixed FEN entry). -/
structure CheckersPiece where
  pos : ℕ
  king : Bool

/-- The checkers board state read by `CheckersGame.board_to_tensor`:
white and black piece lists from the FEN, the side to move, and the move
count (present in the game state but, as the encoding shows, unused). -/
structure CheckersBoardEnc where
  whitePieces : List CheckersPiece
  blackPieces : List CheckersPiece
  turn : ℕ
  moveNumber : ℕ

/-- Embedding of `CheckersGame._pos_to_coords`. -/
def pos_to_coords (pos : ℕ) : ℕ × ℕ :=
  ((pos - 1) / 5, ((pos - 1) % 5) * 2 + (if ((pos - 1) / 5) % 2 = 0 then 1 else 0))

/-- Whether some man (non-king, `isdigit` FEN entry, square in 1-50) of
the list lands on cell (r, c).  King entries fail `isdigit()` and are
never placed. -/
def checkersManAt (pieces : List CheckersPiece) (r c : ℕ) : Bool :=
  pieces.any (fun pc =>
    !pc.king && decide (1 ≤ pc.pos) && decide (pc.pos ≤ 50) &&
    decide ((pos_to_coords pc.pos).1 = r) && decide ((pos_to_coords pc.pos).2 = c))

/-- One 14-plane group of the checkers encoding: the body of the
`for i in range(8)` loop in `CheckersGame.board_to_tensor`. -/
def checkersPlaneEntry (st : CheckersBoardEnc) (p r c : ℕ) : ℚ :=
  if p = 12 then (if st.turn = 1 then 1 else 0)
  else if p = 13 then 0
  else if p = 0 then (if checkersManAt st.whitePieces r c then 1 else 0)
  else if p = 2 then (if checkersManAt st.blackPieces r c then 1 else 0)
  else 0

/-- Embedding of `CheckersGame.board_to_tensor` as a function of
(history index, plane, row, col). -/
def checkers_board_to_tensor (b : CheckersBoardEnc) (history : List CheckersBoardEnc)
    (i p r c : ℕ) : ℚ :=
  if i < 8 ∧ p < 14 ∧ r < 8 ∧ c < 8 then
    checkersPlaneEntry (histSelect b history i) p r c
  else 0

/-- A checkers position at move count 1. -/
def checkersSampleA : CheckersBoardEnc :=
  { whitePieces := [⟨6, false⟩], blackPieces := [⟨45, false⟩]
    turn := 1, moveNumber := 1 }

/-- The same checkers position at move count 2. -/
def checkersSampleB : CheckersBoardEnc :=
  { whitePieces := [⟨6, false⟩], blackPieces := [⟨45, false⟩]
    turn := 1, moveNumber := 2 }

/-- A chess starting-state stub at fullmove 1 (empty piece map). -/
def chessSampleA : ChessBoardEnc :=
  { pieceAt := fun _ => none, turnWhite := true, fullmoveNumber := 1 }

/-- The same chess state at fullmove 2. -/
def chessSampleB : ChessBoardEnc :=
  { pieceAt := fun _ => none, turnWhite := true, fullmoveNumber := 2 }

end Games

/-! ## Match rewards (`league/competition.py`)

`Match._record_experience` stores `[state, policy, None, agent.name]`;
`Match._finalize_match` backfills `exp[2]` with `final_reward` when the
stored name equals `agent1.name` and `-final_reward` otherwise. -/

namespace Competition

/-- One recorded experience (state tensor abstracted to an id; the policy
dict is irrelevant to reward assignment). -/
structure Experience where
  stateId : ℕ
  reward : Option ℚ
  agentName : String
deriving DecidableEq

/-- The reward backfill applied to one experience by
`Match._finalize_match`. -/
def assign_reward (agent1Name : String) (finalReward : ℚ) (e : Experience) :
    Experience :=
  if e.agentName = agent1Name then { e with reward := some finalReward }
  else { e with reward := some (-finalReward) }

/-- The reward-assignment loop of `Match._finalize_match`, over loop over
`self.experiences`. -/
def finalize_rewards (agent1Name : String) (finalReward : ℚ)
    (exps : List Experience) : List Experience :=
  exps.map (assign_reward agent1Name finalReward)

/-! ### Match move bound (`league/competition.py`)

`Match.__init__` sets `self.max_moves = 200` unconditionally; its
parameter list has no max-moves argument, and `Competition.play_match`
constructs `Match(agent1, agent2, game_type, visualize, enable_validation,
generation, move_logger, score_tracker)` without consulting the
configuration's `max_moves_per_game`. -/

/-- The configuration scalars reaching `Competition.play_match` (only the
one relevant here is kept). -/
structure MatchConfig where
  max_moves_per_game : ℕ

/-- The match state mutated by `Match.play`'s loop. -/
structure MatchState (B : Type) where
  board : B
  moveCount : ℕ
  maxMoves : ℕ

/-- The game operations `Match.play` consults: terminal test, validated
move selection (`None` models "no valid move found, ending game") and
move application. -/
structure MatchGame (B M : Type) where
  is_game_over : B → Bool
  pick_move : B → ℕ → Option M
  make_move : B → M → B

/-- Embedding of `Match.__init__`: `self.max_moves = 200`, `self.move_count = 0`. -/
def matchInit {B : Type} (board : B) : MatchState B :=
  { board := board, moveCount := 0, maxMoves := 200 }

/-- The `while not game_over and move_count < max_moves` loop of
`Match.play`.  The fuel argument only bounds the iteration count; `play`
supplies `maxMoves - moveCount`, which the loop condition makes exact. -/
def playLoop {B M : Type} (g : MatchGame B M) : ℕ → MatchState B → MatchState B
  | 0, s => s
  | fuel + 1, s =>
    if ¬ g.is_game_over s.board ∧ s.moveCount < s.maxMoves then
      match g.pick_move s.board s.moveCount with
      | none => s
      | some m =>
        playLoop g fuel
          { board := g.make_move s.board m
            moveCount := s.moveCount + 1
            maxMoves := s.maxMoves }
    else s

/-- The main loop of `Match.play`. -/
def play {B M : Type} (g : MatchGame B M) (s : MatchState B) : MatchState B :=
  playLoop g (s.maxMoves - s.moveCount) s

/-- Embedding of `Competition.play_match`: builds a `Match` (never forwarding
`cfg.max_moves_per_game`) and plays it. -/
def play_match {B M : Type} (_cfg : MatchConfig) (g : MatchGame B M) (board : B) :
    MatchState B :=
  play g (matchInit board)

end Competition

/-! ## Training step (`core/training.py`)

`TrainingManager.train_step` wraps its whole body in `try/except`; the
handler logs and returns `{"total_loss": 0.0, "policy_loss": 0.0,
"value_loss": 0.0}` (the decorator's fallback is identical and is never
reached because the inner handler catches everything; `clear_gpu_memory`
itself swallows its own exceptions).  The body is modelled at Python
statement granularity as four fallible stages; network weights change
only in the optimizer-step stage. -/

namespace Training

/-- The loss dictionary returned by `train_step`. -/
structure LossDict where
  total_loss : ℚ
  policy_loss : ℚ
  value_loss : ℚ
deriving DecidableEq

/-- The zeroed loss dictionary returned when a step is abandoned. -/
def zeroLossDict : LossDict :=
  { total_loss := 0, policy_loss := 0, value_loss := 0 }

/-- The fallible stages of one `train_step` body, in source order:
batch unpacking/tensor preparation (lines 35-66), forward pass and loss
computation (lines 69-85), `backward()` + `optimizer.step()` updating the
weights (lines 88-89), and loss extraction / cleanup (lines 91-95). -/
structure TrainPipeline (W B P E : Type) where
  prepare : B → Except E P
  forwardLoss : W → P → Except E (ℚ × ℚ)
  optStep : W → P → ℚ → ℚ → Except E W
  finalizeStep : W → Except E Unit

/-- Embedding of `TrainingManager.train_step`: runs the stages and, on any exception,
abandons the step and returns the zeroed loss dictionary; the result also
carries the weight state after the call. -/
def train_step {W B P E : Type} (tp : TrainPipeline W B P E) (w : W) (batch : B) :
    LossDict × W :=
  match tp.prepare batch with
  | .error _ => (zeroLossDict, w)
  | .ok p =>
    match tp.forwardLoss w p with
    | .error _ => (zeroLossDict, w)
    | .ok (pl, vl) =>
      match tp.optStep w p pl vl with
      | .error _ => (zeroLossDict, w)
      | .ok w2 =>
        match tp.finalizeStep w2 with
        | .error _ => (zeroLossDict, w2)
        | .ok _ => ({ total_loss := pl + vl, policy_loss := pl, value_loss := vl }, w2)

/-- A pipeline whose preparation stage always raises, used to instantiate
the recovery theorem on a concrete failing batch. -/
def failingPipeline : TrainPipeline ℕ Unit Unit Unit where
  prepare := fun _ => .error ()
  forwardLoss := fun _ _ => .error ()
  optStep := fun _ _ _ _ => .error ()
  finalizeStep := fun _ => .error ()

end Training

/-! ## MCTS engine (`core/mcts.py`)

The search tree is a rooted arborescence; a node owns its board snapshot,
a move-keyed child list, a visit count, a running-average value and a
prior.  Mutation by parent pointers in the source becomes structural
reconstruction along the selection path here.  `np.sqrt` is kept abstract
as a parameter `sqrtA : ℚ → ℚ` (its values never matter to the claims);
network inference (`MCTS._evaluate_position`) is a parameter
`evalPos : B → Option (List ℚ × ℚ)` whose `none` models the inference
call raising; the Dirichlet noise draw is a parameter list; the
per-simulation `try/except: continue` of `MCTS.search` is modelled by a
list of `Bool` outcomes, a `false` entry being a simulation that raised
and was skipped. -/

namespace MCTS

/-- The game-abstraction operations MCTS consults.  `make_move` is the
pure result of `copy_board` + `make_move` on the copy. -/
structure GameSpec (B M : Type) where
  legal_moves : B → List M
  make_move : B → M → B
  is_game_over : B → Bool
  get_reward : B → ℚ

/-- Embedding of `MCTSNode`: board snapshot, children keyed by move, visit count,
running-average value, prior. -/
inductive Node (B M : Type) : Type where
  | mk (board : B) (children : List (M × Node B M)) (visits : ℕ) (value : ℚ)
      (prior : ℚ)

/-- The node's board snapshot. -/
def Node.board {B M : Type} : Node B M → B
  | .mk b _ _ _ _ => b

/-- The node's child map. -/
def Node.children {B M : Type} : Node B M → List (M × Node B M)
  | .mk _ cs _ _ _ => cs

/-- The node's visit count. -/
def Node.visits {B M : Type} : Node B M → ℕ
  | .mk _ _ vis _ _ => vis

/-- The node's running-average value (`Q`). -/
def Node.value {B M : Type} : Node B M → ℚ
  | .mk _ _ _ val _ => val

/-- The node's prior probability. -/
def Node.prior {B M : Type} : Node B M → ℚ
  | .mk _ _ _ _ pr => pr

/-- The per-node update of `MCTSNode.backpropagate`:
`visits += 1; value += (v - value) / visits`. -/
def Node.visitUpdate {B M : Type} (n : Node B M) (v : ℚ) : Node B M :=
  .mk n.board n.children (n.visits + 1)
    (n.value + (v - n.value) / ((n.visits : ℚ) + 1)) n.prior

/-- The sum of the visit counts of a node's children. -/
def Node.childVisitSum {B M : Type} (n : Node B M) : ℕ :=
  (n.children.map (fun e => e.2.visits)).sum

/-- The loop body of `MCTSNode.expand`: for each `(move, prob)` pair, add
a child for the move unless one already exists. -/
def expandFold {B M : Type} [DecidableEq M] (g : GameSpec B M) (board : B)
    (cs : List (M × Node B M)) (pairs : List (M × ℚ)) : List (M × Node B M) :=
  pairs.foldl
    (fun acc mp =>
      if acc.any (fun e => decide (e.1 = mp.1)) then acc
      else acc ++ [(mp.1, Node.mk (g.make_move board mp.1) [] 0 0 mp.2)])
    cs

/-- Embedding of `MCTSNode.expand`: one child per `zip(legal_moves, policy)` entry not
already present, with a freshly played board copy and the policy entry as
prior. -/
def Node.expand {B M : Type} [DecidableEq M] (g : GameSpec B M) (n : Node B M)
    (policy : List ℚ) (legal : List M) : Node B M :=
  .mk n.board (expandFold g n.board n.children (legal.zip policy))
    n.visits n.value n.prior

/-- The UCB key of `MCTSNode.select`:
`Q + c_puct * prior * sqrt(parent visits) / (1 + visits)`; `sqrtA` stands
for `np.sqrt`. -/
def ucbScore {B M : Type} (sqrtA : ℚ → ℚ) (c_puct : ℚ) (parentVisits : ℕ)
    (child : Node B M) : ℚ :=
  child.value + c_puct * child.prior * sqrtA (parentVisits : ℚ) / (1 + (child.visits : ℚ))

/-- Python's `max(items, key=...)`: scan left to right keeping the first
strictly greatest item, tracked with its index. -/
def selectAux {B M : Type} (f : Node B M → ℚ) :
    List (M × Node B M) → ℕ → ℕ × (M × Node B M) → ℕ × (M × Node B M)
  | [], _, best => best
  | e :: rest, i, best =>
    selectAux f rest (i + 1) (if f e.2 > f best.2.2 then (i, e) else best)

/-- Expansion and evaluation at a leaf, from `MCTS._simulate`: terminal
boards (or failed/no-legal-moves evaluations) use `get_reward`; otherwise
the leaf is expanded with `policy[: len(legal_moves)]` and the network
value is backpropagated. -/
def leafStep {B M : Type} [DecidableEq M] (g : GameSpec B M)
    (evalPos : B → Option (List ℚ × ℚ)) (n : Node B M) (simBoard : B) :
    Node B M × ℚ :=
  if g.is_game_over simBoard then
    (n.visitUpdate (g.get_reward simBoard), g.get_reward simBoard)
  else
    match evalPos simBoard with
    | none => (n.visitUpdate (g.get_reward simBoard), g.get_reward simBoard)
    | some pv =>
      let legal := g.legal_moves simBoard
      if legal.isEmpty then
        (n.visitUpdate (g.get_reward simBoard), g.get_reward simBoard)
      else
        ((n.expand g (pv.1.take legal.length) legal).visitUpdate pv.2, pv.2)

/-- Embedding of `MCTS._simulate`: descend by UCB selection (replaying moves on the
simulation board) until a leaf, expand/evaluate there, and backpropagate
with alternating signs on the way back up.  The second component is the
value this subtree's root was updated with.  The fuel argument only
bounds the descent; callers pass `sizeOf` of the tree, which exceeds its
depth, so the zero-fuel case is unreachable. -/
def simulateF {B M : Type} [DecidableEq M] (g : GameSpec B M) (sqrtA : ℚ → ℚ)
    (evalPos : B → Option (List ℚ × ℚ)) :
    ℕ → Node B M → B → Node B M × ℚ
  | 0, n, simBoard => leafStep g evalPos n simBoard
  | fuel + 1, n, simBoard =>
    match n.children with
    | [] => leafStep g evalPos n simBoard
    | e0 :: rest =>
      let sel := selectAux (ucbScore sqrtA 1 n.visits) rest 1 (0, e0)
      let rec2 := simulateF g sqrtA evalPos fuel sel.2.2
        (g.make_move simBoard sel.2.1)
      (Node.visitUpdate
        (Node.mk n.board (n.children.set sel.1 (sel.2.1, rec2.1))
          n.visits n.value n.prior)
        (-rec2.2), -rec2.2)

mutual

/-- The number of nodes in a tree (a strict bound on its depth, used as
descent fuel). -/
def Node.size {B M : Type} : Node B M → ℕ
  | .mk _ cs _ _ _ => 1 + sizeChildren cs

/-- Total node count of a child list. -/
def sizeChildren {B M : Type} : List (M × Node B M) → ℕ
  | [] => 0
  | e :: rest => Node.size e.2 + sizeChildren rest

end

/-- The root node `MCTSNode(self.game, board)`: no children, zero visits,
zero value, default prior 1. -/
def mkRoot {B M : Type} (board : B) : Node B M :=
  .mk board [] 0 0 1

/-- The Dirichlet mixing weight ε = 0.25. -/
def epsilonMix : ℚ := 1 / 4

/-- The uniform fallback policy over `k` legal moves. -/
def uniformPolicy (k : ℕ) : List ℚ :=
  List.replicate k (1 / (k : ℚ))

/-- Root expansion in `MCTS.search`: evaluate the root, mix the sliced
policy with Dirichlet noise, and expand; any failure in this block (a
raising inference call, or the numpy shape mismatch when the policy
vector is shorter than the legal-move list) falls back to a uniform
policy over all legal moves. -/
def rootExpand {B M : Type} [DecidableEq M] (g : GameSpec B M)
    (evalPos : B → Option (List ℚ × ℚ)) (noise : List ℚ)
    (root : Node B M) (legal : List M) : Node B M :=
  match evalPos root.board with
  | some pv =>
    if legal.length ≤ pv.1.length ∧ noise.length = legal.length then
      root.expand g
        ((pv.1.take legal.length).zipWith
          (fun p nz => (1 - epsilonMix) * p + epsilonMix * nz) noise)
        legal
    else
      root.expand g (uniformPolicy legal.length) legal
  | none => root.expand g (uniformPolicy legal.length) legal

/-- One iteration of the simulation loop in `MCTS.search`: run
`_simulate` from the root when the simulation completes (`ok = true`);
a simulation that raised is skipped, leaving the tree's visit counts
untouched. -/
def simStep {B M : Type} [DecidableEq M] (g : GameSpec B M) (sqrtA : ℚ → ℚ)
    (evalPos : B → Option (List ℚ × ℚ)) (board : B) (r : Node B M)
    (ok : Bool) : Node B M :=
  if ok then (simulateF g sqrtA evalPos r.size r board).1 else r

/-- The tree built by `MCTS.search` after root expansion and the
simulation loop; `simOk` records, per simulation, whether it completed
(`true`) or raised and was skipped (`false`). -/
def searchRoot {B M : Type} [DecidableEq M] (g : GameSpec B M) (sqrtA : ℚ → ℚ)
    (evalPos : B → Option (List ℚ × ℚ)) (noise : List ℚ) (board : B)
    (simOk : List Bool) : Node B M :=
  simOk.foldl (simStep g sqrtA evalPos board)
    (rootExpand g evalPos noise (mkRoot board) (g.legal_moves board))

/-- Policy extraction at the end of `MCTS.search`: empty mapping for a
childless root, uniform over the children when no visits were recorded,
else visit counts normalised by the total. -/
def extractPolicy {B M : Type} (n : Node B M) : List (M × ℚ) :=
  if n.children.isEmpty then []
  else if n.childVisitSum = 0 then
    n.children.map (fun e => (e.1, 1 / (n.children.length : ℚ)))
  else
    n.children.map (fun e => (e.1, (e.2.visits : ℚ) / (n.childVisitSum : ℚ)))

/-- Embedding of `MCTS.search`: empty policy when there are no legal moves, otherwise
root expansion, the simulation loop, and policy extraction. -/
def search {B M : Type} [DecidableEq M] (g : GameSpec B M) (sqrtA : ℚ → ℚ)
    (evalPos : B → Option (List ℚ × ℚ)) (noise : List ℚ) (board : B)
    (simOk : List Bool) : List (M × ℚ) :=
  if (g.legal_moves board).isEmpty then []
  else extractPolicy (searchRoot g sqrtA evalPos noise board simOk)

/-- Embedding of `MCTSNode.backpropagate v` started at the leaf reached by descending
`path` (a list of child indices) from `node`: the leaf is updated with
`v` and each ancestor at distance `d` with `(-1) ^ d * v`. -/
def Node.backpropagate {B M : Type} (v : ℚ) : List ℕ → Node B M → Node B M
  | [], n => n.visitUpdate v
  | i :: rest, n =>
    Node.visitUpdate
      (Node.mk n.board
        (match n.children.get? i with
          | some e => n.children.set i (e.1, Node.backpropagate v rest e.2)
          | none => n.children)
        n.visits n.value n.prior)
      ((-1) ^ (i :: rest).length * v)

/-- Every `value` field in the tree lies in `[-1, 1]`. -/
inductive AllBounded {B M : Type} : Node B M → Prop where
  | mk : ∀ (b : B) (cs : List (M × Node B M)) (vis : ℕ) (val pr : ℚ),
      |val| ≤ 1 → (∀ e ∈ cs, AllBounded e.2) → AllBounded (.mk b cs vis val pr)

/-- A three-position toy game used to instantiate the search theorems:
from board `b < 3` the moves 1 and 2 are legal and add to the board;
boards `≥ 3` are terminal with reward 1. -/
def toyGame : GameSpec ℕ ℕ where
  legal_moves := fun b => if b < 3 then [1, 2] else []
  make_move := fun b m => b + m
  is_game_over := fun b => decide (3 ≤ b)
  get_reward := fun b => if 3 ≤ b then 1 else 0

/-- A network stub whose inference always raises (exercising the uniform
fallback). -/
def toyEval : ℕ → Option (List ℚ × ℚ) := fun _ => none

/-- A stand-in for `np.sqrt` for the toy instantiation. -/
def toySqrt : ℚ → ℚ := fun _ => 0

end MCTS

/-! # Theorems -/

/-! ## Replay buffer FIFO (C7) -/

theorem ReplayBuffer.addOne_eq_drop {α : Type} (capacity : ℕ) (buf : List α) (e : α) :
    ReplayBuffer.addOne capacity buf e =
      (buf ++ [e]).drop (buf.length + 1 - capacity) := by
  simp [ReplayBuffer.addOne]

theorem ReplayBuffer.addAll_eq_drop {α : Type} (capacity : ℕ) :
    ∀ (es buf : List α), buf.length ≤ capacity →
      ReplayBuffer.addAll capacity buf es =
        (buf ++ es).drop (buf.length + es.length - capacity) := by
  intro es
  induction es with
  | nil =>
    intro buf h
    simp [ReplayBuffer.addAll, Nat.sub_eq_zero_of_le h]
  | cons e es ih =>
    intro buf h
    have hstep : ReplayBuffer.addAll capacity buf (e :: es) =
        ReplayBuffer.addAll capacity (ReplayBuffer.addOne capacity buf e) es := by
      simp [ReplayBuffer.addAll]
    have hA : ReplayBuffer.addOne capacity buf e =
        (buf ++ [e]).drop (buf.length + 1 - capacity) :=
      ReplayBuffer.addOne_eq_drop capacity buf e
    have hlenA : (ReplayBuffer.addOne capacity buf e).length =
        buf.length + 1 - (buf.length + 1 - capacity) := by
      rw [hA]
      simp
    have hlen1 : (ReplayBuffer.addOne capacity buf e).length ≤ capacity := by
      rw [hlenA]
      omega
    rw [hstep, ih _ hlen1, hlenA, hA]
    have hle : buf.length + 1 - capacity ≤ (buf ++ [e]).length := by
      simp only [List.length_append, List.length_singleton]
      omega
    rw [← List.drop_append_of_le_length hle, List.drop_drop]
    have harr : (buf ++ [e]) ++ es = buf ++ e :: es := by simp
    rw [harr]
    congr 1
    simp only [List.length_cons]
    omega

/-- Claim C7: for every capacity `c > 0` and `k > 0`, inserting `c + k`
single experiences into a `SharedReplayBuffer` of capacity `c` leaves
exactly the last `c` inserted experiences, in insertion order. -/
theorem claim_C7 {α : Type} (c k : ℕ) (xs : List α) (_hc : 0 < c) (_hk : 0 < k)
    (hlen : xs.length = c + k) :
    ReplayBuffer.addAll c [] xs = xs.drop k := by
  have h := ReplayBuffer.addAll_eq_drop c xs [] (by simp)
  simp only [List.length_nil, List.nil_append, Nat.zero_add] at h
  rw [h, hlen]
  congr 1
  omega

/-- Witness for C7 at capacity 2, overshoot 1. -/
theorem claim_C7_witness :
    0 < 2 ∧ 0 < 1 ∧ ([10, 20, 30] : List ℕ).length = 2 + 1 ∧
      ReplayBuffer.addAll 2 [] [10, 20, 30] = [10, 20, 30].drop 1 :=
  ⟨by decide, by decide, by decide,
    claim_C7 2 1 [10, 20, 30] (by decide) (by decide) (by decide)⟩

/-! ## Challenger promotion (C4) -/

/-- Claim C4: the champion's weights are overwritten by the challenger's,
and Alpha and Beta are resynchronized from the new champion, exactly when
the evaluated win rate strictly exceeds the threshold; otherwise all
weights are unchanged and the defense-win counter increments by 1. -/
theorem claim_C4 {W : Type} (s : League.LeagueState W) (challengerW : W)
    (winRate threshold : ℚ) :
    (winRate > threshold →
      (League.run_challenger_phase s challengerW winRate threshold).championW = challengerW ∧
      (League.run_challenger_phase s challengerW winRate threshold).alphaW = challengerW ∧
      (League.run_challenger_phase s challengerW winRate threshold).betaW = challengerW ∧
      (League.run_challenger_phase s challengerW winRate threshold).defenseWins = s.defenseWins) ∧
    (¬ winRate > threshold →
      (League.run_challenger_phase s challengerW winRate threshold).championW = s.championW ∧
      (League.run_challenger_phase s challengerW winRate threshold).alphaW = s.alphaW ∧
      (League.run_challenger_phase s challengerW winRate threshold).betaW = s.betaW ∧
      (League.run_challenger_phase s challengerW winRate threshold).defenseWins = s.defenseWins + 1) := by
  constructor <;> intro h <;>
    simp [League.run_challenger_phase, h]

/-- Witness for C4: win rate 0.60 against threshold 0.55 promotes; win
rate 0.50 defends and increments the defense-win counter. -/
theorem claim_C4_witness :
    ((3 : ℚ) / 5 > 11 / 20 ∧
      (League.run_challenger_phase League.sampleState 7 (3 / 5) (11 / 20)).championW = 7) ∧
    (¬ ((1 : ℚ) / 2 > 11 / 20) ∧
      (League.run_challenger_phase League.sampleState 7 (1 / 2) (11 / 20)).defenseWins = 0 + 1) :=
  ⟨⟨by norm_num,
      ((claim_C4 League.sampleState 7 (3 / 5) (11 / 20)).1 (by norm_num)).1⟩,
    ⟨by norm_num,
      ((claim_C4 League.sampleState 7 (1 / 2) (11 / 20)).2 (by norm_num)).2.2.2⟩⟩

/-! ## Move application atomicity (C5) -/

/-- Claim C5: whenever `make_move` raises (post-move validation fails),
the pushed move has been popped again and the board visible to the caller
is exactly the pre-call board. -/
theorem claim_C5 {B M : Type}
    (validate : Games.StackBoard B M → Games.StackBoard B M → M → Bool)
    (board : Games.StackBoard B M) (m : M)
    (h : (Games.make_move validate board m).1 = false) :
    (Games.make_move validate board m).2 = board := by
  simp only [Games.make_move] at h ⊢
  by_cases hv : validate board (Games.push board m) m
  · rw [if_pos hv] at h
    exact absurd h (by simp)
  · rw [if_neg hv]
    show Games.pop (Games.push board m) = board
    simp [Games.pop, Games.push, List.dropLast_concat]

/-- Witness for C5: a validator that rejects everything leaves the board
unchanged. -/
theorem claim_C5_witness :
    (Games.make_move Games.alwaysReject ⟨0, []⟩ 5).1 = false ∧
      (Games.make_move Games.alwaysReject ⟨0, []⟩ 5).2 = ⟨0, []⟩ :=
  ⟨by decide, claim_C5 Games.alwaysReject ⟨0, []⟩ 5 (by decide)⟩

/-! ## Match reward signs (C9) -/

/-- Claim C9: `_finalize_match` gives every experience whose stored agent
name equals `agent1`'s name the reward `+final_reward` and every other
experience `-final_reward`; hence in champion self-play (all recorded
names equal the one agent's name) every experience receives
`+final_reward`, and none receives the negated value (when it is
distinguishable, i.e. the reward is nonzero). -/
theorem claim_C9 (n1 : String) (fr : ℚ) (exps : List Competition.Experience) :
    (∀ e ∈ Competition.finalize_rewards n1 fr exps,
        e.reward = some (if e.agentName = n1 then fr else -fr)) ∧
    ((∀ e ∈ exps, e.agentName = n1) →
      (∀ e ∈ Competition.finalize_rewards n1 fr exps, e.reward = some fr) ∧
      (fr ≠ 0 → ∀ e ∈ Competition.finalize_rewards n1 fr exps,
        e.reward ≠ some (-fr))) := by
  have hname : ∀ x : Competition.Experience,
      (Competition.assign_reward n1 fr x).agentName = x.agentName := by
    intro x
    by_cases hx2 : x.agentName = n1 <;> simp [Competition.assign_reward, hx2]
  have hmain : ∀ e ∈ Competition.finalize_rewards n1 fr exps,
      e.reward = some (if e.agentName = n1 then fr else -fr) := by
    intro e he
    rw [Competition.finalize_rewards, List.mem_map] at he
    obtain ⟨x, _hx, rfl⟩ := he
    by_cases h : x.agentName = n1 <;>
      simp [Competition.assign_reward, h]
  refine ⟨hmain, fun hall => ?_⟩
  have hpos : ∀ e ∈ Competition.finalize_rewards n1 fr exps, e.reward = some fr := by
    intro e he
    have h1 := hmain e he
    rw [Competition.finalize_rewards, List.mem_map] at he
    obtain ⟨x, hx, rfl⟩ := he
    have hn : (Competition.assign_reward n1 fr x).agentName = n1 :=
      (hname x).trans (hall x hx)
    simpa [hn] using h1
  refine ⟨hpos, fun hfr e he hcontra => ?_⟩
  have h1 := hpos e he
  rw [h1] at hcontra
  have h2 : fr = -fr := by
    simpa using hcontra
  have h3 : fr = 0 := by linarith
  exact hfr h3

/-- Witness for C9: a one-experience self-play match with reward 1. -/
theorem claim_C9_witness :
    (∀ e ∈ ([⟨0, none, "Champion"⟩] : List Competition.Experience),
        e.agentName = "Champion") ∧
    (∀ e ∈ Competition.finalize_rewards "Champion" 1 [⟨0, none, "Champion"⟩],
        e.reward = some 1) :=
  ⟨by decide,
    ((claim_C9 "Champion" 1 [⟨0, none, "Champion"⟩]).2 (by decide)).1⟩

/-! ## Match move bound (C10) -/

theorem Competition.playLoop_bound {B M : Type} (g : Competition.MatchGame B M) :
    ∀ (fuel : ℕ) (s : Competition.MatchState B),
      (Competition.playLoop g fuel s).moveCount ≤ s.moveCount + fuel ∧
      (Competition.playLoop g fuel s).maxMoves = s.maxMoves := by
  intro fuel
  induction fuel with
  | zero => intro s; simp [Competition.playLoop]
  | succ n ih =>
    intro s
    rw [Competition.playLoop]
    by_cases hc : ¬ g.is_game_over s.board ∧ s.moveCount < s.maxMoves
    · rw [if_pos hc]
      cases hpick : g.pick_move s.board s.moveCount with
      | none =>
        exact ⟨Nat.le_add_right _ _, rfl⟩
      | some m =>
        have h2 := ih { board := g.make_move s.board m
                        moveCount := s.moveCount + 1
                        maxMoves := s.maxMoves }
        exact ⟨le_trans h2.1
          (show s.moveCount + 1 + n ≤ s.moveCount + (n + 1) by omega), h2.2⟩
    · rw [if_neg hc]
      exact ⟨Nat.le_add_right _ _, rfl⟩

/-- Claim C10: every match played through `Competition.play_match`
executes at most 200 moves, because `Match.__init__` pins `max_moves` to
the constant 200 and `play_match` never forwards the configured
`max_moves_per_game`; the bound is the same for every configuration. -/
theorem claim_C10 {B M : Type} (cfg : Competition.MatchConfig)
    (g : Competition.MatchGame B M) (board : B) :
    (Competition.play_match cfg g board).moveCount ≤ 200 ∧
    (Competition.matchInit board).maxMoves = 200 ∧
    (∀ cfg' : Competition.MatchConfig,
      Competition.play_match cfg g board = Competition.play_match cfg' g board) := by
  refine ⟨?_, rfl, fun _ => rfl⟩
  have h := Competition.playLoop_bound g 200 (Competition.matchInit board)
  have : (Competition.matchInit board).moveCount = 0 := rfl
  simpa [Competition.play_match, Competition.play, Competition.matchInit]
    using h.1

/-! ## Training step error recovery (C8) -/

/-- Claim C8: if any stage of `train_step` raises, the call returns the
zeroed loss dictionary instead of propagating the exception; the weights
are untouched when the failure occurs at or before the optimizer step,
and are never left partially updated (the only weight change is the one
completed optimizer step). -/
theorem claim_C8 {W B P E : Type} (tp : Training.TrainPipeline W B P E)
    (w : W) (batch : B) :
    (∀ e, tp.prepare batch = .error e →
      Training.train_step tp w batch = (Training.zeroLossDict, w)) ∧
    (∀ p e, tp.prepare batch = .ok p → tp.forwardLoss w p = .error e →
      Training.train_step tp w batch = (Training.zeroLossDict, w)) ∧
    (∀ p pl vl e, tp.prepare batch = .ok p → tp.forwardLoss w p = .ok (pl, vl) →
      tp.optStep w p pl vl = .error e →
      Training.train_step tp w batch = (Training.zeroLossDict, w)) ∧
    (∀ p pl vl w2 e, tp.prepare batch = .ok p → tp.forwardLoss w p = .ok (pl, vl) →
      tp.optStep w p pl vl = .ok w2 → tp.finalizeStep w2 = .error e →
      Training.train_step tp w batch = (Training.zeroLossDict, w2)) := by
  refine ⟨?_, ?_, ?_, ?_⟩
  · intro e h
    simp [Training.train_step, h]
  · intro p e h1 h2
    simp [Training.train_step, h1, h2]
  · intro p pl vl e h1 h2 h3
    simp [Training.train_step, h1, h2, h3]
  · intro p pl vl w2 e h1 h2 h3 h4
    simp [Training.train_step, h1, h2, h3, h4]

/-- Witness for C8: a batch whose preparation stage raises yields the
zeroed loss dictionary and unchanged weights. -/
theorem claim_C8_witness :
    Training.failingPipeline.prepare () = .error () ∧
      Training.train_step Training.failingPipeline 0 () = (Training.zeroLossDict, 0) :=
  ⟨rfl, (claim_C8 Training.failingPipeline 0 ()).1 () rfl⟩

/-! ## Board tensor encodings (C6) -/

theorem Games.histSelect_nil {S : Type} (board : S) (i : ℕ) :
    Games.histSelect board [] i = board := by
  unfold Games.histSelect
  split
  · rfl
  · split <;> simp

/-- Claim C6 counterexample: two checkers positions identical except for
their move count have identical encodings, because
`CheckersGame.board_to_tensor` writes `plane[13] = 0` as a placeholder and
never reads the move count. -/
theorem claim_C6_counterexample :
    Games.checkersSampleA.moveNumber ≠ Games.checkersSampleB.moveNumber ∧
    Games.checkers_board_to_tensor Games.checkersSampleA [] =
      Games.checkers_board_to_tensor Games.checkersSampleB [] := by
  refine ⟨by decide, ?_⟩
  funext i p r c
  simp [Games.checkers_board_to_tensor, Games.histSelect_nil,
    Games.checkersPlaneEntry, Games.checkersSampleA, Games.checkersSampleB]

/-- Claim C6, amended: the chess encoding does incorporate side-to-move
(plane 12) and move-count (plane 13) planes, so chess positions differing
only in move count encode differently; the checkers encoding sets its
side-to-move plane but its move-count plane is constantly zero and king
pieces are skipped entirely, so checkers positions differing only in move
count encode identically and kings are invisible to the encoding. -/
theorem claim_C6_amended :
    (∀ b1 b2 : Games.ChessBoardEnc, b1.pieceAt = b2.pieceAt →
      b1.turnWhite = b2.turnWhite → b1.fullmoveNumber ≠ b2.fullmoveNumber →
      Games.chess_board_to_tensor b1 [] ≠ Games.chess_board_to_tensor b2 []) ∧
    (∀ (b : Games.ChessBoardEnc) (h : List Games.ChessBoardEnc) (r c : ℕ),
      r < 8 → c < 8 →
      Games.chess_board_to_tensor b h 0 12 r c = (if b.turnWhite then 1 else 0) ∧
      Games.chess_board_to_tensor b h 0 13 r c = (b.fullmoveNumber : ℚ) / 100) ∧
    (∀ c1 c2 : Games.CheckersBoardEnc, c1.whitePieces = c2.whitePieces →
      c1.blackPieces = c2.blackPieces → c1.turn = c2.turn →
      Games.checkers_board_to_tensor c1 [] = Games.checkers_board_to_tensor c2 []) ∧
    (∀ (wp bp : List Games.CheckersPiece) (t n : ℕ) (k : Games.CheckersPiece),
      k.king = true →
      Games.checkers_board_to_tensor ⟨k :: wp, bp, t, n⟩ [] =
        Games.checkers_board_to_tensor ⟨wp, bp, t, n⟩ []) := by
  refine ⟨?_, ?_, ?_, ?_⟩
  · intro b1 b2 hp ht hf contra
    have h0 := congrFun (congrFun (congrFun (congrFun contra 0) 13) 0) 0
    simp only [Games.chess_board_to_tensor, Games.histSelect,
      Games.chessPlaneEntry] at h0
    norm_num at h0
    field_simp at h0
    exact hf h0
  · intro b h r c hr hc
    constructor <;>
      simp [Games.chess_board_to_tensor, Games.histSelect,
        Games.chessPlaneEntry, hr, hc]
  · intro c1 c2 h1 h2 h3
    cases c1
    cases c2
    simp only at h1 h2 h3
    subst h1
    subst h2
    subst h3
    funext i p r c
    simp [Games.checkers_board_to_tensor, Games.histSelect_nil,
      Games.checkersPlaneEntry]
  · intro wp bp t n k hk
    funext i p r c
    simp [Games.checkers_board_to_tensor, Games.histSelect_nil,
      Games.checkersPlaneEntry, Games.checkersManAt, hk]

/-- Witness for the amended C6: two concrete chess states differing only
in the fullmove number encode differently. -/
theorem claim_C6_amended_witness :
    Games.chessSampleA.fullmoveNumber ≠ Games.chessSampleB.fullmoveNumber ∧
    Games.chess_board_to_tensor Games.chessSampleA [] ≠
      Games.chess_board_to_tensor Games.chessSampleB [] :=
  ⟨by decide, claim_C6_amended.1 Games.chessSampleA Games.chessSampleB
    rfl rfl (by decide)⟩

/-! ## MCTS engine (C1, C2, C3) -/

@[simp] theorem MCTS.Node.board_mk {B M : Type} (b : B)
    (cs : List (M × MCTS.Node B M)) (vis : ℕ) (val pr : ℚ) :
    (MCTS.Node.mk b cs vis val pr).board = b := rfl

@[simp] theorem MCTS.Node.children_mk {B M : Type} (b : B)
    (cs : List (M × MCTS.Node B M)) (vis : ℕ) (val pr : ℚ) :
    (MCTS.Node.mk b cs vis val pr).children = cs := rfl

@[simp] theorem MCTS.Node.visits_mk {B M : Type} (b : B)
    (cs : List (M × MCTS.Node B M)) (vis : ℕ) (val pr : ℚ) :
    (MCTS.Node.mk b cs vis val pr).visits = vis := rfl

@[simp] theorem MCTS.Node.value_mk {B M : Type} (b : B)
    (cs : List (M × MCTS.Node B M)) (vis : ℕ) (val pr : ℚ) :
    (MCTS.Node.mk b cs vis val pr).value = val := rfl

@[simp] theorem MCTS.Node.prior_mk {B M : Type} (b : B)
    (cs : List (M × MCTS.Node B M)) (vis : ℕ) (val pr : ℚ) :
    (MCTS.Node.mk b cs vis val pr).prior = pr := rfl

@[simp] theorem MCTS.Node.visitUpdate_children {B M : Type} (n : MCTS.Node B M)
    (v : ℚ) : (n.visitUpdate v).children = n.children := rfl

@[simp] theorem MCTS.Node.visitUpdate_visits {B M : Type} (n : MCTS.Node B M)
    (v : ℚ) : (n.visitUpdate v).visits = n.visits + 1 := rfl

@[simp] theorem MCTS.Node.expand_visits {B M : Type} [DecidableEq M]
    (g : MCTS.GameSpec B M) (n : MCTS.Node B M) (policy : List ℚ)
    (legal : List M) : (n.expand g policy legal).visits = n.visits := rfl

@[simp] theorem MCTS.Node.expand_children {B M : Type} [DecidableEq M]
    (g : MCTS.GameSpec B M) (n : MCTS.Node B M) (policy : List ℚ)
    (legal : List M) :
    (n.expand g policy legal).children =
      MCTS.expandFold g n.board n.children (legal.zip policy) := rfl

theorem MCTS.Node.size_pos {B M : Type} (n : MCTS.Node B M) : 0 < n.size := by
  cases n with
  | mk b cs vis val pr =>
    rw [MCTS.Node.size]
    omega

theorem MCTS.selectAux_get {B M : Type} (f : MCTS.Node B M → ℚ) :
    ∀ (cs : List (M × MCTS.Node B M)) (k : ℕ) (best : ℕ × (M × MCTS.Node B M))
      (full : List (M × MCTS.Node B M)),
      full.get? best.1 = some best.2 →
      (∀ j, cs.get? j = full.get? (k + j)) →
      full.get? (MCTS.selectAux f cs k best).1 =
        some (MCTS.selectAux f cs k best).2 := by
  intro cs
  induction cs with
  | nil =>
    intro k best full hb _
    simpa [MCTS.selectAux] using hb
  | cons e rest ih =>
    intro k best full hb hcs
    rw [MCTS.selectAux]
    apply ih
    · by_cases hf : f e.2 > f best.2.2
      · rw [if_pos hf]
        have h0 := hcs 0
        simpa using h0.symm
      · rw [if_neg hf]
        exact hb
    · intro j
      have hj := hcs (j + 1)
      have harith : k + (j + 1) = k + 1 + j := by omega
      rw [harith] at hj
      simpa using hj

theorem MCTS.expandFold_keys {B M : Type} [DecidableEq M] (g : MCTS.GameSpec B M)
    (board : B) :
    ∀ (pairs : List (M × ℚ)) (cs : List (M × MCTS.Node B M)) (m : M),
      m ∈ (MCTS.expandFold g board cs pairs).map Prod.fst ↔
        m ∈ cs.map Prod.fst ∨ m ∈ pairs.map Prod.fst := by
  intro pairs
  induction pairs with
  | nil =>
    intro cs m
    simp [MCTS.expandFold]
  | cons mp rest ih =>
    intro cs m
    have hstep : MCTS.expandFold g board cs (mp :: rest) =
        MCTS.expandFold g board
          (if cs.any (fun e => decide (e.1 = mp.1)) then cs
            else cs ++ [(mp.1, MCTS.Node.mk (g.make_move board mp.1) [] 0 0 mp.2)])
          rest := by
      simp only [MCTS.expandFold, List.foldl_cons]
    rw [hstep]
    by_cases hany : cs.any (fun e => decide (e.1 = mp.1))
    · rw [if_pos hany, ih]
      have hmem : mp.1 ∈ cs.map Prod.fst := by
        rcases List.any_eq_true.mp hany with ⟨e, he, hde⟩
        have hde2 : e.1 = mp.1 := of_decide_eq_true hde
        exact hde2 ▸ List.mem_map_of_mem Prod.fst he
      simp only [List.map_cons, List.mem_cons]
      constructor
      · rintro (h | h)
        · exact Or.inl h
        · exact Or.inr (Or.inr h)
      · rintro (h | h | h)
        · exact Or.inl h
        · exact Or.inl (h ▸ hmem)
        · exact Or.inr h
    · rw [if_neg hany, ih]
      simp only [List.map_append, List.map_cons, List.mem_append, List.map_nil,
        List.mem_cons, List.mem_singleton, List.not_mem_nil, or_false]
      tauto

theorem MCTS.expandFold_visits_zero {B M : Type} [DecidableEq M]
    (g : MCTS.GameSpec B M) (board : B) :
    ∀ (pairs : List (M × ℚ)) (cs : List (M × MCTS.Node B M)),
      (∀ e ∈ cs, e.2.visits = 0) →
      ∀ e ∈ MCTS.expandFold g board cs pairs, e.2.visits = 0 := by
  intro pairs
  induction pairs with
  | nil =>
    intro cs h
    simpa [MCTS.expandFold] using h
  | cons mp rest ih =>
    intro cs h
    have hstep : MCTS.expandFold g board cs (mp :: rest) =
        MCTS.expandFold g board
          (if cs.any (fun e => decide (e.1 = mp.1)) then cs
            else cs ++ [(mp.1, MCTS.Node.mk (g.make_move board mp.1) [] 0 0 mp.2)])
          rest := by
      simp only [MCTS.expandFold, List.foldl_cons]
    rw [hstep]
    apply ih
    by_cases hany : cs.any (fun e => decide (e.1 = mp.1))
    · rw [if_pos hany]
      exact h
    · rw [if_neg hany]
      intro e he
      rcases List.mem_append.mp he with h1 | h1
      · exact h e h1
      · rcases List.mem_singleton.mp h1 with rfl
        rfl

theorem MCTS.sum_map_set {A : Type} (f : A → ℕ) :
    ∀ (cs : List A) (i : ℕ) (e e' : A), cs.get? i = some e →
      ((cs.set i e').map f).sum + f e = (cs.map f).sum + f e' := by
  intro cs
  induction cs with
  | nil =>
    intro i e e' h
    simp at h
  | cons a rest ih =>
    intro i e e' h
    cases i with
    | zero =>
      simp only [List.get?] at h
      injection h with h
      subst h
      simp only [List.set_cons_zero, List.map_cons, List.sum_cons]
      omega
    | succ j =>
      simp only [List.get?] at h
      have hrec := ih j e e' h
      simp only [List.set_cons_succ, List.map_cons, List.sum_cons]
      omega

theorem MCTS.map_fst_set {M N : Type} :
    ∀ (cs : List (M × N)) (i : ℕ) (e : M × N) (c' : N),
      cs.get? i = some e →
      (cs.set i (e.1, c')).map Prod.fst = cs.map Prod.fst := by
  intro cs
  induction cs with
  | nil =>
    intro i e c' h
    simp at h
  | cons a rest ih =>
    intro i e c' h
    cases i with
    | zero =>
      simp only [List.get?] at h
      injection h with h
      subst h
      simp [List.set_cons_zero]
    | succ j =>
      simp only [List.get?] at h
      simp only [List.set_cons_succ, List.map_cons]
      rw [ih j e c' h]

theorem MCTS.leafStep_visits {B M : Type} [DecidableEq M] (g : MCTS.GameSpec B M)
    (evalPos : B → Option (List ℚ × ℚ)) (n : MCTS.Node B M) (simBoard : B) :
    (MCTS.leafStep g evalPos n simBoard).1.visits = n.visits + 1 := by
  unfold MCTS.leafStep
  split
  · simp
  · split
    · simp
    · dsimp only
      split <;> simp

theorem MCTS.simulateF_visits {B M : Type} [DecidableEq M] (g : MCTS.GameSpec B M)
    (sqrtA : ℚ → ℚ) (evalPos : B → Option (List ℚ × ℚ)) :
    ∀ (fuel : ℕ) (n : MCTS.Node B M) (simBoard : B),
      (MCTS.simulateF g sqrtA evalPos fuel n simBoard).1.visits = n.visits + 1 := by
  intro fuel n simBoard
  cases fuel with
  | zero => exact MCTS.leafStep_visits g evalPos n simBoard
  | succ f =>
    rw [MCTS.simulateF]
    cases hcs : n.children with
    | nil => exact MCTS.leafStep_visits g evalPos n simBoard
    | cons e0 rest => simp

theorem MCTS.simulateF_childVisitSum {B M : Type} [DecidableEq M]
    (g : MCTS.GameSpec B M) (sqrtA : ℚ → ℚ) (evalPos : B → Option (List ℚ × ℚ))
    (fuel : ℕ) (n : MCTS.Node B M) (simBoard : B) (hne : n.children ≠ []) :
    (MCTS.simulateF g sqrtA evalPos (fuel + 1) n simBoard).1.childVisitSum =
      n.childVisitSum + 1 := by
  rw [MCTS.simulateF]
  cases hcs : n.children with
  | nil => exact absurd hcs hne
  | cons e0 rest =>
    have hsum : n.childVisitSum = ((e0 :: rest).map (fun e => e.2.visits)).sum := by
      rw [MCTS.Node.childVisitSum, hcs]
    dsimp only
    set sel := MCTS.selectAux (MCTS.ucbScore sqrtA 1 n.visits) rest 1 (0, e0)
      with hsel
    have hget : (e0 :: rest).get? sel.1 = some sel.2 := by
      rw [hsel]
      apply MCTS.selectAux_get
      · rfl
      · intro j
        rw [Nat.add_comm 1 j]
        rfl
    rw [MCTS.Node.childVisitSum]
    simp only [MCTS.Node.visitUpdate_children, MCTS.Node.children_mk]
    have hs := MCTS.sum_map_set (fun e => e.2.visits) (e0 :: rest) sel.1 sel.2
      (sel.2.1,
        (MCTS.simulateF g sqrtA evalPos fuel sel.2.2
          (g.make_move simBoard sel.2.1)).1)
      hget
    have hv := MCTS.simulateF_visits g sqrtA evalPos fuel sel.2.2
      (g.make_move simBoard sel.2.1)
    dsimp only at hs
    rw [hsum]
    omega

theorem MCTS.simulateF_keys {B M : Type} [DecidableEq M]
    (g : MCTS.GameSpec B M) (sqrtA : ℚ → ℚ) (evalPos : B → Option (List ℚ × ℚ))
    (fuel : ℕ) (n : MCTS.Node B M) (simBoard : B) (hne : n.children ≠ []) :
    (MCTS.simulateF g sqrtA evalPos (fuel + 1) n simBoard).1.children.map Prod.fst =
      n.children.map Prod.fst := by
  rw [MCTS.simulateF]
  cases hcs : n.children with
  | nil => exact absurd hcs hne
  | cons e0 rest =>
    dsimp only
    set sel := MCTS.selectAux (MCTS.ucbScore sqrtA 1 n.visits) rest 1 (0, e0)
      with hsel
    have hget : (e0 :: rest).get? sel.1 = some sel.2 := by
      rw [hsel]
      apply MCTS.selectAux_get
      · rfl
      · intro j
        rw [Nat.add_comm 1 j]
        rfl
    simp only [MCTS.Node.visitUpdate_children, MCTS.Node.children_mk]
    exact MCTS.map_fst_set (e0 :: rest) sel.1 sel.2
      ((MCTS.simulateF g sqrtA evalPos fuel sel.2.2
        (g.make_move simBoard sel.2.1)).1) hget

theorem MCTS.simStep_false {B M : Type} [DecidableEq M] (g : MCTS.GameSpec B M)
    (sqrtA : ℚ → ℚ) (evalPos : B → Option (List ℚ × ℚ)) (board : B)
    (r : MCTS.Node B M) :
    MCTS.simStep g sqrtA evalPos board r false = r := rfl

theorem MCTS.simStep_true {B M : Type} [DecidableEq M] (g : MCTS.GameSpec B M)
    (sqrtA : ℚ → ℚ) (evalPos : B → Option (List ℚ × ℚ)) (board : B)
    (r : MCTS.Node B M) :
    MCTS.simStep g sqrtA evalPos board r true =
      (MCTS.simulateF g sqrtA evalPos r.size r board).1 := rfl

theorem MCTS.searchLoop_invariant {B M : Type} [DecidableEq M]
    (g : MCTS.GameSpec B M) (sqrtA : ℚ → ℚ) (evalPos : B → Option (List ℚ × ℚ))
    (board : B) :
    ∀ (simOk : List Bool) (r : MCTS.Node B M), r.children ≠ [] →
      (simOk.foldl (MCTS.simStep g sqrtA evalPos board) r).childVisitSum =
          r.childVisitSum + simOk.count true ∧
        (simOk.foldl (MCTS.simStep g sqrtA evalPos board) r).children.map Prod.fst =
          r.children.map Prod.fst := by
  intro simOk
  induction simOk with
  | nil =>
    intro r _
    exact ⟨by simp, rfl⟩
  | cons ok rest ih =>
    intro r hr
    rw [List.foldl_cons]
    cases ok with
    | false =>
      rw [MCTS.simStep_false]
      have h2 := ih r hr
      refine ⟨?_, h2.2⟩
      rw [h2.1]
      have hc : (false :: rest).count true = rest.count true := by simp
      rw [hc]
    | true =>
      rw [MCTS.simStep_true]
      have hpos := MCTS.Node.size_pos r
      have hf : r.size - 1 + 1 = r.size := by omega
      have hsum2 : (MCTS.simulateF g sqrtA evalPos r.size r board).1.childVisitSum =
          r.childVisitSum + 1 := by
        rw [← hf]
        exact MCTS.simulateF_childVisitSum g sqrtA evalPos (r.size - 1) r board hr
      have hkeys2 : (MCTS.simulateF g sqrtA evalPos r.size r board).1.children.map
          Prod.fst = r.children.map Prod.fst := by
        rw [← hf]
        exact MCTS.simulateF_keys g sqrtA evalPos (r.size - 1) r board hr
      have hne2 : (MCTS.simulateF g sqrtA evalPos r.size r board).1.children ≠ [] := by
        intro hcnil
        rw [hcnil] at hkeys2
        exact hr (List.map_eq_nil_iff.mp hkeys2.symm)
      have h2 := ih _ hne2
      refine ⟨?_, by rw [h2.2, hkeys2]⟩
      rw [h2.1, hsum2]
      have hc : (true :: rest).count true = rest.count true + 1 := by simp
      rw [hc]
      omega

theorem MCTS.expand_mkRoot_keys {B M : Type} [DecidableEq M] (g : MCTS.GameSpec B M)
    (board : B) (policy : List ℚ) (legal : List M)
    (hlen : legal.length ≤ policy.length) :
    ∀ m, m ∈ ((MCTS.mkRoot board : MCTS.Node B M).expand g policy legal).children.map
        Prod.fst ↔ m ∈ legal := by
  intro m
  rw [MCTS.Node.expand_children, MCTS.expandFold_keys,
    List.map_fst_zip legal policy hlen]
  simp [MCTS.mkRoot]

theorem MCTS.expand_mkRoot_visits_zero {B M : Type} [DecidableEq M]
    (g : MCTS.GameSpec B M) (board : B) (policy : List ℚ) (legal : List M) :
    ∀ e ∈ ((MCTS.mkRoot board : MCTS.Node B M).expand g policy legal).children,
      e.2.visits = 0 := by
  rw [MCTS.Node.expand_children]
  apply MCTS.expandFold_visits_zero
  intro e he
  simp [MCTS.mkRoot] at he

theorem MCTS.rootExpand_keys {B M : Type} [DecidableEq M] (g : MCTS.GameSpec B M)
    (evalPos : B → Option (List ℚ × ℚ)) (noise : List ℚ) (board : B)
    (legal : List M) :
    ∀ m, m ∈ (MCTS.rootExpand g evalPos noise (MCTS.mkRoot board) legal).children.map
        Prod.fst ↔ m ∈ legal := by
  intro m
  unfold MCTS.rootExpand
  cases hev : evalPos (MCTS.mkRoot board : MCTS.Node B M).board with
  | none =>
    exact MCTS.expand_mkRoot_keys g board _ legal (by simp [MCTS.uniformPolicy]) m
  | some pv =>
    dsimp only
    by_cases hcond : legal.length ≤ pv.1.length ∧ noise.length = legal.length
    · rw [if_pos hcond]
      apply MCTS.expand_mkRoot_keys
      rcases hcond with ⟨h1, h2⟩
      rw [List.length_zipWith, List.length_take]
      omega
    · rw [if_neg hcond]
      exact MCTS.expand_mkRoot_keys g board _ legal (by simp [MCTS.uniformPolicy]) m

theorem MCTS.rootExpand_visits_zero {B M : Type} [DecidableEq M]
    (g : MCTS.GameSpec B M) (evalPos : B → Option (List ℚ × ℚ)) (noise : List ℚ)
    (board : B) (legal : List M) :
    ∀ e ∈ (MCTS.rootExpand g evalPos noise (MCTS.mkRoot board) legal).children,
      e.2.visits = 0 := by
  unfold MCTS.rootExpand
  cases hev : evalPos (MCTS.mkRoot board : MCTS.Node B M).board with
  | none => exact MCTS.expand_mkRoot_visits_zero g board _ legal
  | some pv =>
    dsimp only
    by_cases hcond : legal.length ≤ pv.1.length ∧ noise.length = legal.length
    · rw [if_pos hcond]
      exact MCTS.expand_mkRoot_visits_zero g board _ legal
    · rw [if_neg hcond]
      exact MCTS.expand_mkRoot_visits_zero g board _ legal

theorem MCTS.rootExpand_childVisitSum {B M : Type} [DecidableEq M]
    (g : MCTS.GameSpec B M) (evalPos : B → Option (List ℚ × ℚ)) (noise : List ℚ)
    (board : B) (legal : List M) :
    (MCTS.rootExpand g evalPos noise (MCTS.mkRoot board) legal).childVisitSum = 0 := by
  rw [MCTS.Node.childVisitSum]
  apply List.sum_eq_zero
  intro x hx
  rcases List.mem_map.mp hx with ⟨e, he, rfl⟩
  exact MCTS.rootExpand_visits_zero g evalPos noise board legal e he

theorem MCTS.rootExpand_ne_nil {B M : Type} [DecidableEq M] (g : MCTS.GameSpec B M)
    (evalPos : B → Option (List ℚ × ℚ)) (noise : List ℚ) (board : B)
    (legal : List M) (hlegal : legal ≠ []) :
    (MCTS.rootExpand g evalPos noise (MCTS.mkRoot board) legal).children ≠ [] := by
  intro hc
  cases hl : legal with
  | nil => exact hlegal hl
  | cons a t =>
    have ha : a ∈ legal := by
      rw [hl]
      exact List.mem_cons_self a t
    have hmem := (MCTS.rootExpand_keys g evalPos noise board legal a).mpr ha
    rw [hc] at hmem
    simp at hmem

/-- Claim C2: after any completed MCTS search, the root children's visit
counts sum to the number of simulations that ran to completion without
raising (each `true` in `simOk`); simulations that raised and were
skipped contribute no visits. -/
theorem claim_C2 {B M : Type} [DecidableEq M] (g : MCTS.GameSpec B M)
    (sqrtA : ℚ → ℚ) (evalPos : B → Option (List ℚ × ℚ)) (noise : List ℚ)
    (board : B) (simOk : List Bool) (hlegal : g.legal_moves board ≠ []) :
    (MCTS.searchRoot g sqrtA evalPos noise board simOk).childVisitSum =
      simOk.count true := by
  unfold MCTS.searchRoot
  have hne := MCTS.rootExpand_ne_nil g evalPos noise board (g.legal_moves board) hlegal
  have hinv := MCTS.searchLoop_invariant g sqrtA evalPos board simOk _ hne
  rw [hinv.1, MCTS.rootExpand_childVisitSum]
  omega

/-- Witness for C2 on the toy game with three simulations, one skipped. -/
theorem claim_C2_witness :
    MCTS.toyGame.legal_moves 0 ≠ [] ∧
      (MCTS.searchRoot MCTS.toyGame MCTS.toySqrt MCTS.toyEval [] 0
          [true, true, false]).childVisitSum = [true, true, false].count true :=
  ⟨by decide,
    claim_C2 MCTS.toyGame MCTS.toySqrt MCTS.toyEval [] 0 [true, true, false]
      (by decide)⟩

theorem MCTS.list_sum_div {A : Type} (cs : List A) (f : A → ℚ) (T : ℚ) :
    (cs.map (fun e => f e / T)).sum = (cs.map f).sum / T := by
  induction cs with
  | nil => simp
  | cons a rest ih => simp [ih, add_div]

theorem MCTS.list_sum_const {A : Type} (cs : List A) (q : ℚ) :
    (cs.map (fun _ => q)).sum = (cs.length : ℚ) * q := by
  induction cs with
  | nil => simp
  | cons a rest ih =>
    simp [ih]
    ring

theorem MCTS.extractPolicy_keys {B M : Type} (n : MCTS.Node B M) :
    (MCTS.extractPolicy n).map Prod.fst = n.children.map Prod.fst := by
  unfold MCTS.extractPolicy
  split
  · rename_i hemp
    rw [List.isEmpty_iff.mp hemp]
    rfl
  · split
    · simp only [List.map_map]
      rfl
    · simp only [List.map_map]
      rfl

theorem MCTS.extractPolicy_sum {B M : Type} (n : MCTS.Node B M)
    (hne : n.children ≠ []) :
    ((MCTS.extractPolicy n).map Prod.snd).sum = 1 := by
  have hlen : n.children.length ≠ 0 := by
    intro h0
    exact hne (List.length_eq_zero.mp h0)
  unfold MCTS.extractPolicy
  split
  · rename_i hemp
    exact absurd (List.isEmpty_iff.mp hemp) hne
  · split
    · rename_i hzero
      simp only [List.map_map]
      have hcomp : (Prod.snd ∘ fun (e : M × MCTS.Node B M) =>
          (e.1, (1 : ℚ) / (n.children.length : ℚ))) =
          fun _ => (1 : ℚ) / (n.children.length : ℚ) := rfl
      rw [hcomp, MCTS.list_sum_const]
      field_simp
    · rename_i hzero
      simp only [List.map_map]
      have hcomp : (Prod.snd ∘ fun (e : M × MCTS.Node B M) =>
          (e.1, ((e.2.visits : ℚ)) / (n.childVisitSum : ℚ))) =
          fun e : M × MCTS.Node B M =>
            ((e.2.visits : ℚ)) / ((n.childVisitSum : ℚ)) := rfl
      rw [hcomp, MCTS.list_sum_div]
      have hcast : ((n.children.map (fun e : M × MCTS.Node B M =>
          ((e.2.visits : ℕ) : ℚ))).sum) = ((n.childVisitSum : ℕ) : ℚ) := by
        rw [MCTS.Node.childVisitSum, Nat.cast_list_sum, List.map_map]
        rfl
      rw [hcast]
      have hT : ((n.childVisitSum : ℚ)) ≠ 0 := by
        exact_mod_cast hzero
      field_simp

/-- Claim C1: for every board with at least one legal move, `MCTS.search`
returns a move→probability mapping whose keys are exactly the legal root
moves and whose probabilities sum to 1; the probabilities are the root
children's visit counts normalised by the total, an empty mapping is
returned when the root has no children, and a uniform distribution over
the existing children when the total visit count is zero. -/
theorem claim_C1 {B M : Type} [DecidableEq M] (g : MCTS.GameSpec B M)
    (sqrtA : ℚ → ℚ) (evalPos : B → Option (List ℚ × ℚ)) (noise : List ℚ)
    (board : B) (simOk : List Bool) (hlegal : g.legal_moves board ≠ []) :
    (∀ m, m ∈ (MCTS.search g sqrtA evalPos noise board simOk).map Prod.fst ↔
        m ∈ g.legal_moves board) ∧
    ((MCTS.search g sqrtA evalPos noise board simOk).map Prod.snd).sum = 1 ∧
    (∀ n : MCTS.Node B M, n.children = [] → MCTS.extractPolicy n = []) ∧
    (∀ n : MCTS.Node B M, n.children ≠ [] → n.childVisitSum = 0 →
      MCTS.extractPolicy n =
        n.children.map (fun e => (e.1, 1 / (n.children.length : ℚ)))) ∧
    (∀ n : MCTS.Node B M, n.childVisitSum ≠ 0 →
      MCTS.extractPolicy n =
        n.children.map (fun e => (e.1, (e.2.visits : ℚ) / (n.childVisitSum : ℚ)))) := by
  have hfalse : (g.legal_moves board).isEmpty = false := by
    cases hl : g.legal_moves board with
    | nil => exact absurd hl hlegal
    | cons a t => rfl
  have hsearch : MCTS.search g sqrtA evalPos noise board simOk =
      MCTS.extractPolicy (MCTS.searchRoot g sqrtA evalPos noise board simOk) := by
    unfold MCTS.search
    rw [hfalse]
    simp
  have hne := MCTS.rootExpand_ne_nil g evalPos noise board (g.legal_moves board) hlegal
  have hinv := MCTS.searchLoop_invariant g sqrtA evalPos board simOk _ hne
  have hRne : (MCTS.searchRoot g sqrtA evalPos noise board simOk).children ≠ [] := by
    unfold MCTS.searchRoot
    intro hc
    have hkeys := hinv.2
    rw [hc] at hkeys
    exact hne (List.map_eq_nil_iff.mp hkeys.symm)
  refine ⟨?_, ?_, ?_, ?_, ?_⟩
  · intro m
    rw [hsearch, MCTS.extractPolicy_keys]
    unfold MCTS.searchRoot
    rw [hinv.2]
    exact MCTS.rootExpand_keys g evalPos noise board _ m
  · rw [hsearch]
    exact MCTS.extractPolicy_sum _ hRne
  · intro n hn
    unfold MCTS.extractPolicy
    simp [hn]
  · intro n hn hz
    have hemp : n.children.isEmpty = false := by
      cases hcl : n.children with
      | nil => exact absurd hcl hn
      | cons a t => rfl
    unfold MCTS.extractPolicy
    rw [hemp]
    simp [hz]
  · intro n hz
    have hemp : n.children.isEmpty = false := by
      cases hcl : n.children with
      | nil =>
        exfalso
        apply hz
        rw [MCTS.Node.childVisitSum, hcl]
        rfl
      | cons a t => rfl
    unfold MCTS.extractPolicy
    rw [hemp]
    simp [hz]

/-- Witness for C1 on the toy game with two simulations, one skipped. -/
theorem claim_C1_witness :
    MCTS.toyGame.legal_moves 0 ≠ [] ∧
      (∀ m, m ∈ (MCTS.search MCTS.toyGame MCTS.toySqrt MCTS.toyEval [] 0
          [true, false]).map Prod.fst ↔ m ∈ MCTS.toyGame.legal_moves 0) ∧
      ((MCTS.search MCTS.toyGame MCTS.toySqrt MCTS.toyEval [] 0
          [true, false]).map Prod.snd).sum = 1 :=
  ⟨by decide,
    (claim_C1 MCTS.toyGame MCTS.toySqrt MCTS.toyEval [] 0 [true, false]
      (by decide)).1,
    (claim_C1 MCTS.toyGame MCTS.toySqrt MCTS.toyEval [] 0 [true, false]
      (by decide)).2.1⟩

theorem MCTS.visitUpdate_value_bound (vis : ℕ) (val v : ℚ)
    (hval : |val| ≤ 1) (hv : |v| ≤ 1) :
    |val + (v - val) / ((vis : ℚ) + 1)| ≤ 1 := by
  have hk : (0 : ℚ) ≤ (vis : ℚ) := Nat.cast_nonneg vis
  have hpos : (0 : ℚ) < (vis : ℚ) + 1 := by linarith
  have heq : val + (v - val) / ((vis : ℚ) + 1) =
      ((vis : ℚ) * val + v) / ((vis : ℚ) + 1) := by
    field_simp
    ring
  rw [heq, abs_div, abs_of_pos hpos, div_le_one hpos]
  have h1 : |(vis : ℚ) * val + v| ≤ |(vis : ℚ) * val| + |v| := abs_add _ _
  have h2 : |(vis : ℚ) * val| = (vis : ℚ) * |val| := by
    rw [abs_mul, abs_of_nonneg hk]
  have h3 : (vis : ℚ) * |val| ≤ (vis : ℚ) * 1 :=
    mul_le_mul_of_nonneg_left hval hk
  linarith

theorem MCTS.AllBounded.visitUpdate {B M : Type} {n : MCTS.Node B M} {v : ℚ}
    (hn : MCTS.AllBounded n) (hv : |v| ≤ 1) :
    MCTS.AllBounded (n.visitUpdate v) := by
  cases hn with
  | mk b cs vis val pr hval hcs =>
    exact MCTS.AllBounded.mk b cs (vis + 1) _ pr
      (MCTS.visitUpdate_value_bound vis val v hval hv) hcs

theorem MCTS.AllBounded.value_le {B M : Type} {n : MCTS.Node B M}
    (hn : MCTS.AllBounded n) : |n.value| ≤ 1 := by
  cases hn with
  | mk b cs vis val pr hval hcs => exact hval

theorem MCTS.backpropagate_bounded {B M : Type} :
    ∀ (path : List ℕ) (n : MCTS.Node B M) (v : ℚ),
      |v| ≤ 1 → MCTS.AllBounded n →
      MCTS.AllBounded (MCTS.Node.backpropagate v path n) := by
  intro path
  induction path with
  | nil =>
    intro n v hv hn
    exact hn.visitUpdate hv
  | cons i rest ih =>
    intro n v hv hn
    cases hn with
    | mk b cs vis val pr hval hcs =>
      rw [MCTS.Node.backpropagate]
      have hsign : |(-1 : ℚ) ^ (i :: rest).length * v| ≤ 1 := by
        rw [abs_mul, abs_pow, abs_neg, abs_one, one_pow, one_mul]
        exact hv
      apply MCTS.AllBounded.visitUpdate _ hsign
      cases hgi : (MCTS.Node.mk b cs vis val pr).children.get? i with
      | none =>
        simp only [hgi]
        exact MCTS.AllBounded.mk b cs vis val pr hval hcs
      | some e =>
        simp only [hgi]
        apply MCTS.AllBounded.mk b _ vis val pr hval
        intro e' he'
        rcases List.mem_or_eq_of_mem_set he' with h | h
        · exact hcs e' h
        · subst h
          exact ih e.2 v hv (hcs e (List.get?_mem hgi))

/-- Claim C3: for every MCTS node and every sequence of backpropagated
leaf values lying in `[-1, 1]` (network values are bounded by the `Tanh`
value head and terminal rewards by `get_reward`), every node's
running-average `value` field remains within `[-1, 1]` after every
backpropagation. -/
theorem claim_C3 {B M : Type} (steps : List (List ℕ × ℚ)) (t : MCTS.Node B M)
    (h0 : MCTS.AllBounded t) (hv : ∀ s ∈ steps, |s.2| ≤ 1) :
    MCTS.AllBounded
      (steps.foldl (fun acc s => MCTS.Node.backpropagate s.2 s.1 acc) t) := by
  induction steps generalizing t with
  | nil => exact h0
  | cons s rest ih =>
    rw [List.foldl_cons]
    apply ih
    · exact MCTS.backpropagate_bounded s.1 t s.2
        (hv s (List.mem_cons_self s rest)) h0
    · intro s2 hs2
      exact hv s2 (List.mem_cons_of_mem s hs2)

/-- Witness for C3: a fresh single-node tree and one backpropagation of
the reward 1. -/
theorem claim_C3_witness :
    MCTS.AllBounded (MCTS.Node.mk (0 : ℕ) ([] : List (ℕ × MCTS.Node ℕ ℕ)) 0 0 1) ∧
      (∀ s ∈ ([(([] : List ℕ), (1 : ℚ))] : List (List ℕ × ℚ)), |s.2| ≤ 1) ∧
      MCTS.AllBounded
        (([(([] : List ℕ), (1 : ℚ))] : List (List ℕ × ℚ)).foldl
          (fun acc s => MCTS.Node.backpropagate s.2 s.1 acc)
          (MCTS.Node.mk (0 : ℕ) ([] : List (ℕ × MCTS.Node ℕ ℕ)) 0 0 1)) := by
  have hb : MCTS.AllBounded (MCTS.Node.mk (0 : ℕ) ([] : List (ℕ × MCTS.Node ℕ ℕ)) 0 0 1) :=
    MCTS.AllBounded.mk 0 [] 0 0 1 (by norm_num)
      (fun e he => absurd he (List.not_mem_nil e))
  have hv : ∀ s ∈ ([(([] : List ℕ), (1 : ℚ))] : List (List ℕ × ℚ)), |s.2| ≤ 1 := by
    intro s hs
    rcases List.mem_singleton.mp hs with rfl
    norm_num
  exact ⟨hb, hv, claim_C3 [(([] : List ℕ), (1 : ℚ))] _ hb hv⟩
